import Mathlib

/-!
Verification of the real-time face-anonymization core against its design
specification.  The definitions below are a shallow embedding of the
concentrated logic of the repository:

* `FaceDetectionCache` (src/lib/videoUtils.ts, lines 429-456): the short-TTL
  result cache, a JS `Map` from string keys to `{ faces, timestamp }` with a
  100 ms TTL and a 50-entry capacity bound enforced by oldest-first eviction.
* `useAdvancedFaceDetection.detectAndTrack` (hook source, lines 138-202): the
  cross-frame identity tracker using nearest-neighbour matching on the (x, y)
  corner with a distance threshold.
* `VideoProcessor.processFrame` (component source, lines 94-154): the
  per-callback frame scheduler step with its in-flight guard and catch/finally
  error handling.
* `applyPixelateEffect` (src/lib/videoUtils.ts, lines 51-84): the pixel-level
  pixelate effect acting on an extracted region buffer.

JS `Map` objects are modelled as association lists in insertion order:
`set` on an existing key replaces the value in place (keeping the original
insertion position, as JS maps do), `set` on a fresh key appends at the end,
and iteration order is list order.  JS numbers are modelled as rationals
where fractional values occur and as naturals for counters and timestamps.
-/

/-- One detector observation (interface `DetectedFace` in the face-detection
module): a normalized bounding box, a confidence value and optional
landmarks. -/
structure DFace where
  x : ℚ
  y : ℚ
  width : ℚ
  height : ℚ
  confidence : ℚ
  landmarks : Option (List (ℚ × ℚ)) := none
deriving DecidableEq, Repr

/-! ### Association-list model of a JS Map (insertion ordered) -/

/-- `Map.get`: the value stored at `k`, if any. -/
def mapGet {β : Type} (m : List (String × β)) (k : String) : Option β :=
  (m.find? (fun e => e.1 == k)).map (·.2)

/-- `Map.set`: replace in place if the key is present (JS maps keep the
original insertion position on overwrite), otherwise append at the end. -/
def mapSet {β : Type} (m : List (String × β)) (k : String) (v : β) :
    List (String × β) :=
  if m.any (fun e => e.1 == k) then
    m.map (fun e => if e.1 == k then (k, v) else e)
  else
    m ++ [(k, v)]

/-- `Map.delete`: remove the (first) entry with key `k`; a JS map holds at
most one entry per key. -/
def mapErase {β : Type} (m : List (String × β)) (k : String) :
    List (String × β) :=
  m.eraseP (fun e => e.1 == k)

/-! ### Result cache (`FaceDetectionCache`) -/

/-- A stored cache record `{ faces, timestamp }`. -/
structure CacheEntry where
  faces : List DFace
  timestamp : Nat
deriving DecidableEq, Repr

/-- The cache state: a JS `Map<string, CacheEntry>` in insertion order. -/
abbrev Cache := List (String × CacheEntry)

/-- `FaceDetectionCache.getCachedResult`: a hit requires the key to be
present and `Date.now() - cached.timestamp < 100` (the `cacheTimeout`).
`now` is the current clock in ms; with a monotone clock the JS subtraction
agrees with truncated Nat subtraction (both sides treat `now < timestamp`
as a hit, since a negative difference is `< 100` and `0 < 100`). -/
def getCachedResult (c : Cache) (key : String) (now : Nat) :
    Option (List DFace) :=
  match mapGet c key with
  | some cached => if now - cached.timestamp < 100 then some cached.faces else none
  | none => none

/-- `FaceDetectionCache.setCachedResult`: store `{ faces, timestamp: now }`
under `key`, then if the entry count exceeds 50 delete the first key in
iteration order (the oldest entry). -/
def setCachedResult (c : Cache) (key : String) (faces : List DFace)
    (now : Nat) : Cache :=
  let c2 := mapSet c key ⟨faces, now⟩
  if c2.length > 50 then
    match c2 with
    | [] => c2
    | e :: _ => mapErase c2 e.1
  else c2

/-! ### Basic map lemmas -/

theorem mapGet_nil {β : Type} (k : String) : mapGet ([] : List (String × β)) k = none := rfl

theorem mapGet_cons {β : Type} (e : String × β) (m : List (String × β)) (k : String) :
    mapGet (e :: m) k = if e.1 = k then some e.2 else mapGet m k := by
  simp only [mapGet, List.find?]
  by_cases h : e.1 = k
  · simp [h]
  · simp [h, beq_eq_false_iff_ne.mpr h]

theorem mapSet_of_not_mem {β : Type} (m : List (String × β)) (k : String) (v : β)
    (h : mapGet m k = none) : mapSet m k v = m ++ [(k, v)] := by
  have hall : m.any (fun e => e.1 == k) = false := by
    induction m with
    | nil => rfl
    | cons e t ih =>
      rw [mapGet_cons] at h
      by_cases he : e.1 = k
      · simp [he] at h
      · simp only [List.any_cons, Bool.or_eq_false_iff]
        exact ⟨beq_eq_false_iff_ne.mpr he, ih (by simpa [he] using h)⟩
  simp [mapSet, hall]

theorem mapGet_eq_none_iff {β : Type} (m : List (String × β)) (k : String) :
    mapGet m k = none ↔ ∀ e ∈ m, e.1 ≠ k := by
  induction m with
  | nil => simp [mapGet_nil]
  | cons e t ih =>
    rw [mapGet_cons]
    by_cases he : e.1 = k
    · simp [he]
    · simp [he, ih]

theorem mapGet_mapSet_self {β : Type} (m : List (String × β)) (k : String) (v : β) :
    mapGet (mapSet m k v) k = some v := by
  by_cases h : m.any (fun e => e.1 == k)
  · simp only [mapSet, h, if_true]
    induction m with
    | nil => simp at h
    | cons e t ih =>
      simp only [List.any_cons, Bool.or_eq_true] at h
      by_cases he : e.1 = k
      · simp [mapGet_cons, he]
      · have ht : t.any (fun e => e.1 == k) := by
          rcases h with h | h
          · exact absurd (by simpa using h) he
          · exact h
        simp only [List.map_cons, beq_eq_false_iff_ne.mpr he, Bool.false_eq_true, if_false,
          mapGet_cons, if_neg he]
        exact ih ht
  · rw [mapSet, if_neg h]
    induction m with
    | nil => simp [mapGet_cons]
    | cons e t ih =>
      simp only [List.any_cons, Bool.or_eq_true, not_or] at h
      have he : e.1 ≠ k := by simpa using h.1
      simp only [List.cons_append, mapGet_cons, if_neg he]
      exact ih (by simpa using h.2)

theorem mapGet_append_single {β : Type} (m : List (String × β)) (k k2 : String) (v : β) :
    mapGet (m ++ [(k, v)]) k2 =
      (mapGet m k2).orElse (fun _ => if k = k2 then some v else none) := by
  induction m with
  | nil => simp [mapGet_cons, mapGet_nil, Option.orElse]
  | cons e t ih =>
    simp only [List.cons_append, mapGet_cons, ih]
    by_cases he : e.1 = k2 <;> simp [he, Option.orElse]

theorem length_mapSet_of_mem {β : Type} (m : List (String × β)) (k : String) (v : β)
    (h : m.any (fun e => e.1 == k)) : (mapSet m k v).length = m.length := by
  simp [mapSet, h]

theorem length_mapSet_of_not_mem {β : Type} (m : List (String × β)) (k : String) (v : β)
    (h : mapGet m k = none) : (mapSet m k v).length = m.length + 1 := by
  rw [mapSet_of_not_mem m k v h]
  simp

/-! ### Behaviour of `setCachedResult` -/

/-- An overwrite of an existing key never triggers eviction (the size does
not grow), so the store is exactly the in-place `Map.set`. -/
theorem setCachedResult_of_present (c : Cache) (key : String) (faces : List DFace)
    (now : Nat) (hmem : c.any (fun e => e.1 == key)) (hlen : c.length ≤ 50) :
    setCachedResult c key faces now = mapSet c key ⟨faces, now⟩ := by
  have hl : (mapSet c key (⟨faces, now⟩ : CacheEntry)).length = c.length :=
    length_mapSet_of_mem c key _ hmem
  unfold setCachedResult
  simp only [hl]
  rw [if_neg (by omega)]

/-- Storing a fresh key while below capacity appends it, with no eviction. -/
theorem setCachedResult_of_fresh_small (c : Cache) (key : String) (faces : List DFace)
    (now : Nat) (hget : mapGet c key = none) (hlen : c.length < 50) :
    setCachedResult c key faces now = c ++ [(key, ⟨faces, now⟩)] := by
  have hs := mapSet_of_not_mem c key (⟨faces, now⟩ : CacheEntry) hget
  unfold setCachedResult
  simp only [hs]
  rw [if_neg (by simp; omega)]

/-- Storing a fresh key at exactly full capacity appends it and evicts the
single oldest entry (the head of the insertion order), which is never the
entry just inserted. -/
theorem setCachedResult_of_fresh_full (c : Cache) (key : String) (faces : List DFace)
    (now : Nat) (hget : mapGet c key = none) (hlen : c.length = 50) :
    ∃ k0 e0 rest, c = (k0, e0) :: rest ∧ k0 ≠ key ∧
      setCachedResult c key faces now = rest ++ [(key, ⟨faces, now⟩)] := by
  match c, hlen with
  | (k0, e0) :: rest, hlen =>
    refine ⟨k0, e0, rest, rfl, ?_, ?_⟩
    · have := (mapGet_eq_none_iff _ key).mp hget (k0, e0) (by simp)
      simpa using this
    · have hs := mapSet_of_not_mem ((k0, e0) :: rest) key (⟨faces, now⟩ : CacheEntry) hget
      unfold setCachedResult
      simp only [hs]
      have hlen2 : (((k0, e0) :: rest) ++ [(key, (⟨faces, now⟩ : CacheEntry))]).length = 51 := by
        simp at hlen ⊢; omega
      rw [if_pos (by omega)]
      simp only [List.cons_append]
      show mapErase ((k0, e0) :: (rest ++ [(key, (⟨faces, now⟩ : CacheEntry))])) k0 = _
      unfold mapErase
      rw [List.eraseP_cons_of_pos]
      simp

/-- After any store within the capacity invariant, the stored key maps to the
freshly stored entry. -/
theorem mapGet_setCachedResult_self (c : Cache) (key : String) (faces : List DFace)
    (now : Nat) (hlen : c.length ≤ 50) :
    mapGet (setCachedResult c key faces now) key = some ⟨faces, now⟩ := by
  by_cases hmem : c.any (fun e => e.1 == key)
  · rw [setCachedResult_of_present c key faces now hmem hlen]
    exact mapGet_mapSet_self c key _
  · have hget : mapGet c key = none := by
      rw [mapGet_eq_none_iff]
      intro e he heq
      exact hmem (List.any_eq_true.mpr ⟨e, he, by simpa using heq⟩)
    by_cases hfull : c.length = 50
    · obtain ⟨k0, e0, rest, hc, _, hres⟩ :=
        setCachedResult_of_fresh_full c key faces now hget hfull
      rw [hres, mapGet_append_single]
      have hrest : mapGet rest key = none := by
        rw [mapGet_eq_none_iff]
        intro e he
        exact (mapGet_eq_none_iff c key).mp hget e (by rw [hc]; exact List.mem_cons_of_mem _ he)
      simp [hrest, Option.orElse]
    · rw [setCachedResult_of_fresh_small c key faces now hget (by omega),
        mapGet_append_single]
      simp [hget, Option.orElse]

/-! ### Claim C4: cache TTL semantics -/

/-- C4 — For every key, `getCachedResult` returns the stored face sequence
exactly when an entry with that key exists and `now - storedAt < 100`; a
lookup immediately after `setCachedResult` at the same timestamp returns the
stored value, and a lookup at or after `storedAt + 100` returns nothing. -/
theorem cache_ttl_lookup (c : Cache) (key : String) (now : Nat)
    (hlen : c.length ≤ 50) :
    (∀ fs, getCachedResult c key now = some fs ↔
      ∃ e, mapGet c key = some e ∧ e.faces = fs ∧ now - e.timestamp < 100)
    ∧ (∀ fs, getCachedResult (setCachedResult c key fs now) key now = some fs)
    ∧ (∀ fs d, 100 ≤ d →
        getCachedResult (setCachedResult c key fs now) key (now + d) = none) := by
  refine ⟨?_, ?_, ?_⟩
  · intro fs
    unfold getCachedResult
    cases hget : mapGet c key with
    | none => simp
    | some e =>
      by_cases hfresh : now - e.timestamp < 100
      · simp only [hfresh, if_true]
        constructor
        · rintro h; exact ⟨e, rfl, by injection h, hfresh⟩
        · rintro ⟨e2, he2, hfs, _⟩; injection he2 with he2; rw [← he2] at hfs; rw [hfs]
      · simp only [hfresh, if_false]
        constructor
        · rintro ⟨⟩
        · rintro ⟨e2, he2, _, hlt⟩; injection he2 with he2; rw [← he2] at hlt; exact absurd hlt hfresh
  · intro fs
    unfold getCachedResult
    rw [mapGet_setCachedResult_self c key fs now hlen]
    simp
  · intro fs d hd
    unfold getCachedResult
    rw [mapGet_setCachedResult_self c key fs now hlen]
    simp only
    rw [if_neg (by omega)]

/-- Witness for `cache_ttl_lookup` at a concrete cache, key and clock. -/
theorem cache_ttl_lookup_witness :
    getCachedResult (setCachedResult [] "k" [] 7) "k" 7 = some [] ∧
    getCachedResult (setCachedResult [] "k" [] 7) "k" 107 = none := by
  refine ⟨(cache_ttl_lookup [] "k" 7 (by decide)).2.1 [], ?_⟩
  have h := (cache_ttl_lookup [] "k" 7 (by decide)).2.2 [] 100 (by decide)
  simpa using h

/-! ### Claims C5 and C6: cache capacity and eviction -/

theorem mapGet_map_const_entry (v : CacheEntry) (l : List String) (k : String) :
    mapGet (l.map (fun k2 => (k2, v))) k = if k ∈ l then some v else none := by
  induction l with
  | nil => simp [mapGet_nil]
  | cons k2 t ih =>
    simp only [List.map_cons, mapGet_cons, ih]
    by_cases h : k2 = k
    · simp [h]
    · simp [h, Ne.symm h, List.mem_cons]

/-- Inserting a list of fresh, pairwise-distinct keys while the total stays
within capacity appends them in order with no eviction. -/
theorem foldl_setCachedResult_fresh (fs : List DFace) (now : Nat) :
    ∀ (ks : List String) (c : Cache), ks.Nodup →
      (∀ k ∈ ks, mapGet c k = none) →
      c.length + ks.length ≤ 50 →
      ks.foldl (fun c2 k2 => setCachedResult c2 k2 fs now) c
        = c ++ ks.map (fun k => (k, ⟨fs, now⟩)) := by
  intro ks
  induction ks with
  | nil => intro c _ _ _; simp
  | cons k rest ih =>
    intro c hnd hfresh hlen
    have hk : mapGet c k = none := hfresh k (List.mem_cons_self k rest)
    have hsmall : c.length < 50 := by
      simp only [List.length_cons] at hlen; omega
    have hstep := setCachedResult_of_fresh_small c k fs now hk hsmall
    simp only [List.foldl_cons, hstep]
    have hnd2 := (List.nodup_cons.mp hnd)
    rw [ih (c ++ [(k, (⟨fs, now⟩ : CacheEntry))]) hnd2.2 ?_ ?_]
    · simp
    · intro k2 hk2
      rw [mapGet_append_single]
      have hne : k ≠ k2 := fun h => hnd2.1 (h ▸ hk2)
      simp [hfresh k2 (List.mem_cons_of_mem _ hk2), hne, Option.orElse]
    · simp only [List.length_append, List.length_cons, List.length_nil] at *
      omega

/-- C5 — The cache never exceeds 50 entries after a store completes, and
inserting 51 distinct keys into an empty cache leaves exactly the 50 newest
keys present and the first-inserted key absent. -/
theorem cache_capacity_bound (fs : List DFace) (now : Nat) :
    (∀ (c : Cache) (key : String), c.length ≤ 50 →
      (setCachedResult c key fs now).length ≤ 50)
    ∧ (∀ ks : List String, ks.Nodup → ks.length = 51 →
        ∀ k, mapGet (ks.foldl (fun c2 k2 => setCachedResult c2 k2 fs now) []) k
          = if k ∈ ks.tail then some ⟨fs, now⟩ else none) := by
  constructor
  · intro c key hlen
    by_cases hmem : c.any (fun e => e.1 == key)
    · rw [setCachedResult_of_present c key fs now hmem hlen]
      rw [length_mapSet_of_mem c key _ hmem]
      exact hlen
    · have hget : mapGet c key = none := by
        rw [mapGet_eq_none_iff]
        intro e he heq
        exact hmem (List.any_eq_true.mpr ⟨e, he, by simpa using heq⟩)
      by_cases hfull : c.length = 50
      · obtain ⟨k0, e0, rest, hc, _, hres⟩ :=
          setCachedResult_of_fresh_full c key fs now hget hfull
        rw [hres]
        have : rest.length = 49 := by
          rw [hc] at hfull; simpa using hfull
        simp [this]
      · rw [setCachedResult_of_fresh_small c key fs now hget (by omega)]
        simp only [List.length_append, List.length_cons, List.length_nil]
        omega
  · intro ks hnd hlen k
    match ks, hlen with
    | k0 :: t, hlen =>
      have ht : t.length = 50 := by simpa using hlen
      rcases t.eq_nil_or_concat with rfl | ⟨t2, z, htz⟩
      · simp at ht
      rw [List.concat_eq_append] at htz
      subst htz
      have ht2 : t2.length = 49 := by
        simp only [List.length_append, List.length_cons, List.length_nil] at ht
        omega
      -- the first 50 keys fill the cache with no eviction
      have hsub : (k0 :: t2).Sublist (k0 :: (t2 ++ [z])) :=
        List.Sublist.cons₂ k0 (List.sublist_append_left t2 [z])
      have hnd50 : (k0 :: t2).Nodup := hnd.sublist hsub
      have hfill := foldl_setCachedResult_fresh fs now (k0 :: t2) [] hnd50
        (fun _ _ => rfl) (by simp [ht2])
      have hsplit : (k0 :: (t2 ++ [z])).foldl
          (fun c2 k2 => setCachedResult c2 k2 fs now) ([] : Cache)
          = setCachedResult ((k0 :: t2).foldl
              (fun c2 k2 => setCachedResult c2 k2 fs now) []) z fs now := by
        show ((k0 :: t2) ++ [z]).foldl _ _ = _
        rw [List.foldl_append]
        rfl
      -- distinctness facts for the 51st key
      have hz : z ∉ k0 :: t2 := by
        rcases List.nodup_cons.mp hnd with ⟨hk0, hrest⟩
        rcases List.nodup_append.mp hrest with ⟨_, _, hdisj⟩
        intro hmem
        rcases List.mem_cons.mp hmem with h | h
        · exact hk0 (h ▸ List.mem_append_right t2 (List.mem_cons_self z []))
        · exact hdisj h (List.mem_cons_self z [])
      have hcache50 : ((k0 :: t2).foldl (fun c2 k2 => setCachedResult c2 k2 fs now) [])
          = (k0 :: t2).map (fun k2 => (k2, (⟨fs, now⟩ : CacheEntry))) := by
        simpa using hfill
      have hgetz : mapGet ((k0 :: t2).map (fun k2 => (k2, (⟨fs, now⟩ : CacheEntry)))) z
          = none := by
        rw [mapGet_map_const_entry]
        simp [hz]
      obtain ⟨kk, ee, rest, hceq, hkne, hres⟩ :=
        setCachedResult_of_fresh_full _ z fs now hgetz (by simp [ht2])
      rw [hsplit, hcache50, hres]
      have hrest : rest = t2.map (fun k2 => (k2, (⟨fs, now⟩ : CacheEntry))) := by
        have := congrArg List.tail hceq
        simp at this
        exact this.symm
      rw [hrest]
      have : t2.map (fun k2 => (k2, (⟨fs, now⟩ : CacheEntry))) ++ [(z, ⟨fs, now⟩)]
          = (t2 ++ [z]).map (fun k2 => (k2, (⟨fs, now⟩ : CacheEntry))) := by
        simp
      rw [this, mapGet_map_const_entry]
      rfl

/-- Witness for `cache_capacity_bound`: 51 distinct concrete keys; the first
is evicted, a later one is present, and a single store keeps the bound. -/
theorem cache_capacity_bound_witness :
    (setCachedResult [] "k" [] 0).length ≤ 50 ∧
    mapGet (((List.range 51).map toString).foldl
      (fun c2 k2 => setCachedResult c2 k2 [] 0) []) (toString 0) = none := by
  constructor
  · exact (cache_capacity_bound [] 0).1 [] "k" (by decide)
  · rw [(cache_capacity_bound [] 0).2 ((List.range 51).map toString)
      (by decide) (by decide) (toString 0)]
    rw [if_neg (by decide)]

/-- C6 — `setCachedResult` always overwrites any existing entry for the same
key; an overwrite never evicts; a fresh insert below capacity never evicts;
and a fresh insert at full capacity evicts exactly the single oldest entry,
which is never the entry just inserted. -/
theorem cache_store_semantics (c : Cache) (key : String) (fs : List DFace)
    (now : Nat) (hlen : c.length ≤ 50) :
    mapGet (setCachedResult c key fs now) key = some ⟨fs, now⟩
    ∧ (c.any (fun e => e.1 == key) →
        setCachedResult c key fs now = mapSet c key ⟨fs, now⟩)
    ∧ (mapGet c key = none → c.length < 50 →
        setCachedResult c key fs now = c ++ [(key, ⟨fs, now⟩)])
    ∧ (mapGet c key = none → c.length = 50 →
        ∃ k0 e0 rest, c = (k0, e0) :: rest ∧ k0 ≠ key ∧
          setCachedResult c key fs now = rest ++ [(key, ⟨fs, now⟩)]) :=
  ⟨mapGet_setCachedResult_self c key fs now hlen,
   fun hmem => setCachedResult_of_present c key fs now hmem hlen,
   fun hget hsmall => setCachedResult_of_fresh_small c key fs now hget hsmall,
   fun hget hfull => setCachedResult_of_fresh_full c key fs now hget hfull⟩

/-- Witness for `cache_store_semantics` on a concrete one-entry cache. -/
theorem cache_store_semantics_witness :
    mapGet (setCachedResult [("a", ⟨[], 0⟩)] "k" [] 5) "k" = some ⟨[], 5⟩ ∧
    setCachedResult [("a", ⟨[], 0⟩)] "k" [] 5
      = [("a", ⟨[], 0⟩), ("k", ⟨[], 5⟩)] := by
  have h := cache_store_semantics [("a", ⟨[], 0⟩)] "k" [] 5 (by decide)
  refine ⟨h.1, ?_⟩
  have h3 := h.2.2.1 (by decide) (by decide)
  simpa using h3

/-! ### Frame scheduler (`VideoProcessor.processFrame`, component source)

The per-callback step of the processing loop.  Its mutable state consists of
the in-flight guard `processingRef`, the rolling-window counter
`frameCountRef` and window start `lastTimeRef`, plus the `droppedFrames`
counter declared in `ProcessingStats` (src/lib/videoUtils.ts); no code path
in the repository ever increments `droppedFrames`.  The pipeline body
(draw, detect, anonymize) either succeeds with a face list or throws; this
is the `outcome` input.  `now` models `performance.now()` on a monotone
clock. -/

structure SchedState where
  processing : Bool
  frameCount : Nat
  lastTime : Nat
  droppedFrames : Nat
deriving DecidableEq, Repr

/-- One scheduler callback: guard check, then try/catch/finally around the
pipeline.  Returns the new state, whether the pass ran the pipeline
(`didWork`), and whether the catch branch logged an error. -/
def processFrame (st : SchedState) (isActive isModelLoaded : Bool)
    (outcome : Except Unit (List DFace)) (now : Nat) :
    SchedState × Bool × Bool :=
  if !isActive || st.processing || !isModelLoaded then
    -- `if (!isActive || processingRef.current || !isModelLoaded) return;`
    (st, false, false)
  else
    match outcome with
    | .error _ =>
        -- catch: console.error; finally: processingRef.current = false
        ({ st with processing := false }, true, true)
    | .ok _faces =>
        -- success path: frameCountRef++, then the rolling 1s stats window
        let st1 := { st with processing := true, frameCount := st.frameCount + 1 }
        let st2 := if 1000 ≤ now - st1.lastTime then
            { st1 with frameCount := 0, lastTime := now }
          else st1
        ({ st2 with processing := false }, true, false)

/-! ### Claim C7: in-flight guard -/

/-- C7 — A callback that fires while a pass is in flight performs no
pipeline work and leaves the whole state (in particular `frameCount` and
`droppedFrames`) unchanged, so two passes never overlap in the
single-threaded callback model. -/
theorem sched_inflight_skip (st : SchedState) (a m : Bool)
    (o : Except Unit (List DFace)) (now : Nat) (h : st.processing = true) :
    processFrame st a m o now = (st, false, false) := by
  unfold processFrame
  rw [if_pos]
  simp [h]

/-- Witness for `sched_inflight_skip` at a concrete in-flight state. -/
theorem sched_inflight_skip_witness :
    processFrame ⟨true, 3, 0, 0⟩ true true (.ok []) 42 = (⟨true, 3, 0, 0⟩, false, false) :=
  sched_inflight_skip ⟨true, 3, 0, 0⟩ true true (.ok []) 42 rfl

/-! ### Claim C3: error handling of a failing pass -/

/-- C3 counterexample — on a failing pass the code does NOT increment
`droppedFrames` (the claim says it increments by exactly 1): at a concrete
ready state with `droppedFrames = 0`, the result still has
`droppedFrames = 0`, not `0 + 1`. -/
theorem sched_error_no_dropped_increment :
    (processFrame ⟨false, 5, 0, 0⟩ true true (.error ()) 16).1.droppedFrames ≠ 0 + 1 := by
  decide

/-- C3 amended — on a failing pass the scheduler logs, clears the in-flight
flag and keeps scheduling (the very next callback performs work), but
`droppedFrames` is left unchanged (never incremented), as is `frameCount`. -/
theorem sched_error_recovery (st : SchedState) (now : Nat)
    (hready : st.processing = false) :
    (processFrame st true true (.error ()) now).1
        = { st with processing := false }
    ∧ (processFrame st true true (.error ()) now).2.2 = true
    ∧ (processFrame st true true (.error ()) now).1.droppedFrames = st.droppedFrames
    ∧ (processFrame st true true (.error ()) now).1.frameCount = st.frameCount
    ∧ ∀ (o2 : Except Unit (List DFace)) (now2 : Nat),
        (processFrame (processFrame st true true (.error ()) now).1
          true true o2 now2).2.1 = true := by
  have hguard : (!true || st.processing || !true) = false := by simp [hready]
  unfold processFrame
  rw [if_neg (by simp [hready])]
  refine ⟨rfl, rfl, rfl, rfl, ?_⟩
  intro o2 now2
  rw [if_neg (by simp)]
  cases o2 <;> rfl

/-- Witness for `sched_error_recovery` at a concrete state. -/
theorem sched_error_recovery_witness :
    (processFrame ⟨false, 5, 2, 0⟩ true true (.error ()) 16).1
      = ({ processing := false, frameCount := 5, lastTime := 2, droppedFrames := 0 } : SchedState) :=
  (sched_error_recovery ⟨false, 5, 2, 0⟩ 16 rfl).1

/-! ### Identity tracker (`useAdvancedFaceDetection.detectAndTrack`)

The hook keeps a JS `Map` from `trackingId` to the tracked face object
`{ ...face, trackingId, frameCount }`.  Each call matches every detection
against the current map by nearest (x, y) corner distance under a threshold,
updates or spawns entries, then deletes every entry whose `frameCount`
exceeds `maxTrackingFrames`.  Generated ids (`face_<time>_<random>` in the
source) are modelled by an external supply `gen`, indexed by how many ids
this call has consumed. -/

structure TrackedFace where
  face : DFace
  trackingId : String
  frameCount : Nat
deriving DecidableEq, Repr

abbrev TrackMap := List (String × TrackedFace)

structure TrackOptions where
  enableTracking : Bool := false
  trackingThreshold : Option ℚ := none
  maxTrackingFrames : Option Nat := none

/-- JS `v || dflt` for an optional numeric option: `undefined` and `0` are
falsy and fall back to the default. -/
def qOrDefault (o : Option ℚ) (dflt : ℚ) : ℚ :=
  match o with
  | some v => if v = 0 then dflt else v
  | none => dflt

/-- JS `v || dflt` for an optional natural-number option. -/
def natOrDefault (o : Option Nat) (dflt : Nat) : Nat :=
  match o with
  | some v => if v = 0 then dflt else v
  | none => dflt

/-- Squared distance between a detection and a tracked face on the (x, y)
corner.  The source compares `Math.sqrt d2 < threshold` and
`Math.sqrt d2 < Math.sqrt best2`; the square root is strictly monotone on
nonnegative reals, so these are equivalent to the executable rational
comparisons `d2 < threshold ^ 2` and `d2 < best2` used below. -/
def dist2 (f : DFace) (tf : TrackedFace) : ℚ :=
  (f.x - tf.face.x) ^ 2 + (f.y - tf.face.y) ^ 2

/-- The `bestMatch` loop over the live map entries (in insertion order):
keep the entry with the smallest distance among those strictly below the
threshold; on an exact tie the earlier entry wins because the update
condition is strict. -/
def findBestMatch (m : TrackMap) (f : DFace) (threshold : ℚ) :
    Option (String × ℚ) :=
  m.foldl (fun best e =>
    match best with
    | none =>
        if dist2 f e.2 < threshold ^ 2 then some (e.1, dist2 f e.2) else none
    | some b =>
        if dist2 f e.2 < threshold ^ 2 ∧ dist2 f e.2 < b.2 then
          some (e.1, dist2 f e.2)
        else some b) none

/-- Processing of one detection inside the `faces.forEach` loop: claim the
best match (update geometry, increment `frameCount`, keep the id) or spawn a
new entry with `frameCount = 1` and a freshly generated id.  The accumulator
is (live map, emitted results, ids consumed).  The source only pushes a
result for a matched detection inside the `if (tracked)` guard, which is
mirrored here. -/
def trackStep (gen : Nat → String) (threshold : ℚ)
    (acc : TrackMap × List (DFace × Option String) × Nat) (f : DFace) :
    TrackMap × List (DFace × Option String) × Nat :=
  match findBestMatch acc.1 f threshold with
  | some b =>
      match mapGet acc.1 b.1 with
      | some tracked =>
          (mapSet acc.1 b.1 ⟨f, b.1, tracked.frameCount + 1⟩,
           acc.2.1 ++ [(f, some b.1)], acc.2.2)
      | none => acc
  | none =>
      let newId := gen acc.2.2
      (mapSet acc.1 newId ⟨f, newId, 1⟩,
       acc.2.1 ++ [(f, some newId)], acc.2.2 + 1)

/-- `detectAndTrack` (tracking part): when tracking is disabled detections
pass through untagged; otherwise run the per-detection loop and then delete
every entry whose `frameCount` exceeds `maxTrackingFrames` (default 30).
Returns (emitted results, new live map). -/
def detectAndTrack (gen : Nat → String) (opts : TrackOptions)
    (m : TrackMap) (faces : List DFace) :
    List (DFace × Option String) × TrackMap :=
  if !opts.enableTracking then (faces.map (fun f => (f, none)), m)
  else
    let threshold := qOrDefault opts.trackingThreshold (mkRat 3 10)
    let maxFrames := natOrDefault opts.maxTrackingFrames 30
    let res := faces.foldl (trackStep gen threshold) (m, [], 0)
    (res.2.1, res.1.filter (fun e => e.2.frameCount ≤ maxFrames))

/-- Concrete detection used in the tracker witnesses. -/
def face0 : DFace := ⟨0, 0, mkRat 1 10, mkRat 1 10, mkRat 9 10, none⟩

/-- Concrete options: tracking enabled, default threshold and max frames. -/
def opts0 : TrackOptions := ⟨true, none, none⟩

/-- Concrete id supply. -/
def gen0 : Nat → String := fun n => "id" ++ toString n

/-! ### Claim C1: tracker retention and expiry -/

/-- C1 counterexample — a live identity that is claimed by no detection for
`maxSilentFrames + 1 = 31` consecutive `detectAndTrack` calls is NOT removed
(the claim says it must be absent): after 31 calls with zero detections the
identity is still present, with `frameCount` unchanged.  The code only
deletes entries whose `frameCount` (incremented on matches, not on misses)
exceeds `maxTrackingFrames`. -/
theorem tracker_silent_identity_not_removed :
    mapGet ((fun m => (detectAndTrack gen0 opts0 m []).2)^[31]
      [("a", ⟨face0, "a", 1⟩)]) "a" = some ⟨face0, "a", 1⟩ := by
  decide

theorem mapGet_filter_of_get {β : Type} (p : String × β → Bool)
    (m : List (String × β)) (id : String) (v : β)
    (h : mapGet m id = some v) (hp : p (id, v) = true) :
    mapGet (m.filter p) id = some v := by
  induction m with
  | nil => simp [mapGet_nil] at h
  | cons e t ih =>
    rw [mapGet_cons] at h
    by_cases he : e.1 = id
    · rw [if_pos he] at h
      injection h with h
      have he2 : e = (id, v) := by
        obtain ⟨e1, e2⟩ := e
        simp only at he h
        rw [he, h]
      subst he2
      rw [List.filter_cons, if_pos hp, mapGet_cons, if_pos rfl]
    · rw [if_neg he] at h
      rw [List.filter_cons]
      by_cases hpe : p e
      · rw [if_pos hpe, mapGet_cons, if_neg he]
        exact ih h
      · rw [if_neg (by simpa using hpe)]
        exact ih h

/-- C1 amended — an identity not claimed by any detection is retained with
its `frameCount` unchanged, for any number of consecutive unmatched calls:
it is never removed for silence.  A call removes exactly the entries whose
`frameCount` exceeds `maxTrackingFrames` (default 30), a count that only
grows on successful matches.  Stated for calls with zero detections, the
situation in which an identity is guaranteed unclaimed. -/
theorem tracker_unmatched_retention (gen : Nat → String) (opts : TrackOptions)
    (m : TrackMap) (h : opts.enableTracking = true) :
    (detectAndTrack gen opts m []).1 = []
    ∧ (detectAndTrack gen opts m []).2
        = m.filter (fun e => e.2.frameCount ≤ natOrDefault opts.maxTrackingFrames 30)
    ∧ (∀ id tf, mapGet m id = some tf →
        tf.frameCount ≤ natOrDefault opts.maxTrackingFrames 30 →
        mapGet (detectAndTrack gen opts m []).2 id = some tf) := by
  have hd : detectAndTrack gen opts m []
      = ([], m.filter (fun e => e.2.frameCount ≤ natOrDefault opts.maxTrackingFrames 30)) := by
    unfold detectAndTrack
    rw [if_neg (by simp [h])]
    rfl
  refine ⟨by rw [hd], by rw [hd], ?_⟩
  intro id tf hget hfc
  rw [hd]
  exact mapGet_filter_of_get _ m id tf hget (by simpa using hfc)

/-- Witness for `tracker_unmatched_retention` on a concrete live map. -/
theorem tracker_unmatched_retention_witness :
    mapGet (detectAndTrack gen0 opts0 [("a", ⟨face0, "a", 7⟩)] []).2 "a"
      = some ⟨face0, "a", 7⟩ :=
  (tracker_unmatched_retention gen0 opts0 [("a", ⟨face0, "a", 7⟩)] rfl).2.2
    "a" ⟨face0, "a", 7⟩ rfl (by decide)

/-! ### Claim C2: per-detection claiming -/

unseal Rat.add Rat.sub Rat.mul in
/-- C2 counterexample — two detections in a single call can both claim the
same live identity (the claim says an identity is claimed by at most one
detection per call): with one live identity at the origin and two identical
detections at the origin, both emitted results carry the same trackingId,
and its `frameCount` is incremented twice (1 to 3) in one call. -/
theorem tracker_identity_claimed_twice :
    ((detectAndTrack gen0 opts0 [("a", ⟨face0, "a", 1⟩)] [face0, face0]).1.map
      (fun r => r.2)) = [some "a", some "a"]
    ∧ mapGet (detectAndTrack gen0 opts0 [("a", ⟨face0, "a", 1⟩)] [face0, face0]).2 "a"
      = some ⟨face0, "a", 3⟩ := by
  exact ⟨by decide, by decide⟩

theorem findBestMatch_append (m : TrackMap) (e : String × TrackedFace)
    (f : DFace) (t : ℚ) :
    findBestMatch (m ++ [e]) f t =
      match findBestMatch m f t with
      | none =>
          if dist2 f e.2 < t ^ 2 then some (e.1, dist2 f e.2) else none
      | some b =>
          if dist2 f e.2 < t ^ 2 ∧ dist2 f e.2 < b.2 then
            some (e.1, dist2 f e.2)
          else some b := by
  unfold findBestMatch
  rw [List.foldl_append]
  rfl

/-- Characterization of the `bestMatch` fold: either no live entry is within
the threshold and the result is `none`, or the result is the first entry
attaining the minimal in-threshold distance. -/
theorem findBestMatch_spec (f : DFace) (t : ℚ) (m : TrackMap) :
    (findBestMatch m f t = none ∧ ∀ e ∈ m, ¬ dist2 f e.2 < t ^ 2)
    ∨ (∃ id dd l1 tf l2, findBestMatch m f t = some (id, dd)
        ∧ m = l1 ++ (id, tf) :: l2 ∧ dd = dist2 f tf ∧ dd < t ^ 2
        ∧ (∀ e ∈ l1, dist2 f e.2 < t ^ 2 → dd < dist2 f e.2)
        ∧ (∀ e ∈ m, dist2 f e.2 < t ^ 2 → dd ≤ dist2 f e.2)) := by
  induction m using List.reverseRecOn with
  | nil => left; exact ⟨rfl, by simp⟩
  | append_singleton m e ih =>
    rw [findBestMatch_append]
    rcases ih with ⟨hnone, hall⟩ | ⟨id, dd, l1, tf, l2, hres, hm, hdd, hlt, hfirst, hmin⟩
    · rw [hnone]
      by_cases hd : dist2 f e.2 < t ^ 2
      · right
        refine ⟨e.1, dist2 f e.2, m, e.2, [], by simp [hd], by simp, rfl, hd, ?_, ?_⟩
        · intro e2 he2 hlt2
          exact absurd hlt2 (hall e2 he2)
        · intro e2 he2 hlt2
          rcases List.mem_append.mp he2 with h2 | h2
          · exact absurd hlt2 (hall e2 h2)
          · have he' : e2 = e := by simpa using h2
            subst he'
            exact le_refl _
      · left
        refine ⟨by simp [hd], ?_⟩
        intro e2 he2
        rcases List.mem_append.mp he2 with h2 | h2
        · exact hall e2 h2
        · have he' : e2 = e := by simpa using h2
          subst he'
          exact hd
    · rw [hres]
      by_cases hnew : dist2 f e.2 < t ^ 2 ∧ dist2 f e.2 < dd
      · right
        refine ⟨e.1, dist2 f e.2, m, e.2, [], by simp [hnew], by simp, rfl, hnew.1, ?_, ?_⟩
        · intro e2 he2 hlt2
          exact lt_of_lt_of_le hnew.2 (hmin e2 he2 hlt2)
        · intro e2 he2 hlt2
          rcases List.mem_append.mp he2 with h2 | h2
          · exact le_of_lt (lt_of_lt_of_le hnew.2 (hmin e2 h2 hlt2))
          · have he' : e2 = e := by simpa using h2
            subst he'
            exact le_refl _
      · right
        refine ⟨id, dd, l1, tf, l2 ++ [e], by simp [hnew], ?_, hdd, hlt, hfirst, ?_⟩
        · rw [hm]
          simp
        · intro e2 he2 hlt2
          rcases List.mem_append.mp he2 with h2 | h2
          · exact hmin e2 h2 hlt2
          · have he' : e2 = e := by simpa using h2
            subst he'
            by_cases hd2 : dist2 f e2.2 < dd
            · exact absurd ⟨hlt2, hd2⟩ hnew
            · exact le_of_not_lt hd2

/-- C2 amended — each detection independently claims the nearest live
identity whose distance is strictly within the threshold (earliest entry on
ties), with no per-call exclusivity, so one identity may be claimed by
several detections in the same call (see the counterexample); a claimed
identity keeps its id and gets `frameCount + 1`; a detection with no live
identity within the threshold spawns a new identity with a freshly generated
id and `frameCount = 1`. -/
theorem tracker_per_detection_rule (gen : Nat → String) (t : ℚ) (m : TrackMap)
    (f : DFace) (results : List (DFace × Option String)) (spawned : Nat) :
    (findBestMatch m f t = none ↔ ∀ e ∈ m, ¬ dist2 f e.2 < t ^ 2)
    ∧ (∀ id dd, findBestMatch m f t = some (id, dd) →
        ∃ l1 tf l2, m = l1 ++ (id, tf) :: l2 ∧ dd = dist2 f tf ∧ dd < t ^ 2
          ∧ (∀ e ∈ l1, dist2 f e.2 < t ^ 2 → dd < dist2 f e.2)
          ∧ (∀ e ∈ m, dist2 f e.2 < t ^ 2 → dd ≤ dist2 f e.2))
    ∧ (findBestMatch m f t = none → mapGet m (gen spawned) = none →
        trackStep gen t (m, results, spawned) f
          = (m ++ [(gen spawned, ⟨f, gen spawned, 1⟩)],
             results ++ [(f, some (gen spawned))], spawned + 1))
    ∧ (∀ id dd tf, findBestMatch m f t = some (id, dd) → mapGet m id = some tf →
        trackStep gen t (m, results, spawned) f
          = (mapSet m id ⟨f, id, tf.frameCount + 1⟩,
             results ++ [(f, some id)], spawned)) := by
  refine ⟨⟨?_, ?_⟩, ?_, ?_, ?_⟩
  · intro hn
    rcases findBestMatch_spec f t m with ⟨_, hall⟩ | ⟨id, dd, l1, tf, l2, hres, _, _, _, _, _⟩
    · exact hall
    · rw [hn] at hres
      cases hres
  · intro hall
    rcases findBestMatch_spec f t m with ⟨hn, _⟩ | ⟨id, dd, l1, tf, l2, hres, hm, hdd, hlt, _, _⟩
    · exact hn
    · exfalso
      have hmem : (id, tf) ∈ m := by
        rw [hm]
        exact List.mem_append_right l1 (List.mem_cons_self _ _)
      exact hall (id, tf) hmem (hdd ▸ hlt)
  · intro id dd hres
    rcases findBestMatch_spec f t m with ⟨hn, _⟩ | ⟨id2, dd2, l1, tf, l2, hres2, hm, hdd, hlt, hfirst, hmin⟩
    · rw [hn] at hres
      cases hres
    · rw [hres] at hres2
      injection hres2 with hres2
      injection hres2 with h1 h2
      subst h1
      subst h2
      exact ⟨l1, tf, l2, hm, hdd, hlt, hfirst, hmin⟩
  · intro hn hfresh
    simp only [trackStep, hn]
    rw [mapSet_of_not_mem _ _ _ hfresh]
  · intro id dd tf hres hget
    simp only [trackStep, hres, hget]

unseal Rat.add Rat.sub Rat.mul in
/-- Witness for `tracker_per_detection_rule`: a concrete detection at the
origin claims the single live identity there and increments its count. -/
theorem tracker_per_detection_rule_witness :
    trackStep gen0 (mkRat 3 10) ([("a", ⟨face0, "a", 1⟩)], [], 0) face0
      = ([("a", ⟨face0, "a", 2⟩)], [(face0, some "a")], 0) := by
  have h := (tracker_per_detection_rule gen0 (mkRat 3 10) [("a", ⟨face0, "a", 1⟩)]
    face0 [] 0).2.2.2 "a" 0 ⟨face0, "a", 1⟩ (by decide) rfl
  rw [h]
  decide

/-! ### Effect engine: pixelate (`applyPixelateEffect`)

The source extracts the region into an `ImageData` buffer of
`width * height` RGBA pixels (4 bytes per pixel, row-major), runs the block
loops below in region-local coordinates, and writes the buffer back.  The
buffer is modelled as a total byte map `Nat → Nat`; index
`(row * width + col) * 4 + c` is channel `c` of pixel `(row, col)`.
`bs` is the block side `pixelSize` (`Math.max(8, intensity)` at both call
sites), a positive integer. -/

/-- The three channel writes `data[idx] = r; data[idx+1] = g;
data[idx+2] = b` of the inner fill loop body. -/
def writePix (d : Nat → Nat) (idx r g b : Nat) : Nat → Nat :=
  Function.update (Function.update (Function.update d idx r) (idx + 1) g) (idx + 2) b

/-- The start offsets visited by `for (p = 0; p < len; p += bs)`:
`0, bs, 2*bs, ...` while below `len` (`(len + bs - 1) / bs` iterations for
`bs > 0`). -/
def blockStarts (len bs : Nat) : List Nat :=
  (List.range ((len + bs - 1) / bs)).map (fun k => k * bs)

/-- The fill loops
`for (dy = 0; dy < bs && py + dy < height; dy++)
   for (dx = 0; dx < bs && px + dx < width; dx++)`
writing the sampled color into every in-bounds pixel of the block at
`(px, py)`; for `py < height` the bound is `dy < min bs (height - py)`,
exactly the clamp of a partial block at the region edge. -/
def fillBlock (width height px py bs r g b : Nat) (d : Nat → Nat) : Nat → Nat :=
  (List.range (min bs (height - py))).foldl
    (fun acc dy =>
      (List.range (min bs (width - px))).foldl
        (fun acc2 dx => writePix acc2 (((py + dy) * width + (px + dx)) * 4) r g b)
        acc)
    d

/-- The body of the two block loops: sample r, g, b from the block's
top-left pixel (clamped with `Math.min` as in the source) out of the
current buffer, then fill the block. -/
def processBlock (width height bs : Nat) (py px : Nat) (acc : Nat → Nat) : Nat → Nat :=
  let pixelX := min px (width - 1)
  let pixelY := min py (height - 1)
  let i := (pixelY * width + pixelX) * 4
  fillBlock width height px py bs (acc i) (acc (i + 1)) (acc (i + 2)) acc

/-- `applyPixelateEffect` on the extracted region buffer: the two nested
block loops over `py` and `px`. -/
def applyPixelateEffect (width height bs : Nat) (d : Nat → Nat) : Nat → Nat :=
  (blockStarts height bs).foldl
    (fun acc py =>
      (blockStarts width bs).foldl
        (fun acc2 px => processBlock width height bs py px acc2)
        acc)
    d

/-! ### Surface-level wrapper

The repository reads the region with `ctx.getImageData(x, y, width, height)`
and writes it back with `ctx.putImageData(imageData, x, y)`.  These two
primitives belong to the host canvas, not to the repository, so they are
modelled from the spec. -/

/-- Modelled from the spec: the raster-surface read primitive
(`getImageData`): region-local pixel `(r, c)` reads surface pixel
`(y + r, x + c)` when that lies inside the `W x H` surface, else a zero
(transparent) byte.  The surface is a byte map indexed like the region
buffer but with row stride `W`. -/
def getRegion (W H : Nat) (s : Nat → Nat) (x y w : Nat) : Nat → Nat :=
  fun j =>
    if y + j / 4 / w < H ∧ x + j / 4 % w < W then
      s (((y + j / 4 / w) * W + (x + j / 4 % w)) * 4 + j % 4)
    else 0

/-- Modelled from the spec: the raster-surface write primitive
(`putImageData`): surface pixels inside both the surface bounds and the
`w x h` region at `(x, y)` receive the region-buffer byte; every other
surface byte is untouched (writes are clamped to valid pixels, a zero-area
region writes nothing). -/
def putRegion (W H : Nat) (s : Nat → Nat) (x y w h : Nat) (dta : Nat → Nat) :
    Nat → Nat :=
  fun j =>
    if j < 4 * W * H ∧ y ≤ j / 4 / W ∧ j / 4 / W < y + h
        ∧ x ≤ j / 4 % W ∧ j / 4 % W < x + w then
      dta (((j / 4 / W - y) * w + (j / 4 % W - x)) * 4 + j % 4)
    else s j

/-- The pixelate effect applied through the surface primitives: extract the
region, pixelate the buffer, write it back. -/
def pixelateOnSurface (W H : Nat) (s : Nat → Nat) (x y w h bs : Nat) : Nat → Nat :=
  putRegion W H s x y w h (applyPixelateEffect w h bs (getRegion W H s x y w))

/-! ### Pointwise behaviour of the write loops -/

theorem writePix_apply (d : Nat → Nat) (idx r g b j : Nat) :
    writePix d idx r g b j =
      if j = idx + 2 then b
      else if j = idx + 1 then g
      else if j = idx then r
      else d j := by
  simp [writePix, Function.update_apply]

/-- All byte indices written by a block fill are the RGB channels of its
pixel bases; every base is a multiple of 4 and all writes in one block carry
the same three values, so the fold has this pointwise description. -/
theorem foldl_writePix_apply (r g b j : Nat) :
    ∀ (bases : List Nat) (d : Nat → Nat), (∀ i ∈ bases, i % 4 = 0) →
      (bases.foldl (fun acc i => writePix acc i r g b) d) j =
        if ∃ i ∈ bases, i ≤ j ∧ j ≤ i + 2 then
          (if j % 4 = 0 then r else if j % 4 = 1 then g else b)
        else d j := by
  intro bases
  induction bases with
  | nil =>
    intro d _
    simp
  | cons i rest ih =>
    intro d h4
    have hi4 : i % 4 = 0 := h4 i (List.mem_cons_self _ _)
    simp only [List.foldl_cons]
    rw [ih (writePix d i r g b) (fun i2 hi2 => h4 i2 (List.mem_cons_of_mem _ hi2))]
    by_cases hex : ∃ i2 ∈ rest, i2 ≤ j ∧ j ≤ i2 + 2
    · have hex2 : ∃ i2 ∈ i :: rest, i2 ≤ j ∧ j ≤ i2 + 2 := by
        obtain ⟨i2, hi2, hj2⟩ := hex
        exact ⟨i2, List.mem_cons_of_mem _ hi2, hj2⟩
      rw [if_pos hex, if_pos hex2]
    · rw [if_neg hex, writePix_apply]
      by_cases hj : i ≤ j ∧ j ≤ i + 2
      · rw [if_pos (⟨i, List.mem_cons_self _ _, hj⟩ :
          ∃ i2 ∈ i :: rest, i2 ≤ j ∧ j ≤ i2 + 2)]
        have hcase : j = i ∨ j = i + 1 ∨ j = i + 2 := by omega
        rcases hcase with h | h | h
        · rw [if_neg (by omega), if_neg (by omega), if_pos h, if_pos (by omega)]
        · rw [if_neg (by omega), if_pos h, if_neg (by omega), if_pos (by omega)]
        · rw [if_pos h, if_neg (by omega), if_neg (by omega)]
      · have hne : ¬ ∃ i2 ∈ i :: rest, i2 ≤ j ∧ j ≤ i2 + 2 := by
          rintro ⟨i2, hi2, hj2⟩
          rcases List.mem_cons.mp hi2 with rfl | hmem
          · exact hj hj2
          · exact hex ⟨i2, hmem, hj2⟩
        rw [if_neg hne, if_neg (by omega), if_neg (by omega), if_neg (by omega)]

/-- The list of pixel base indices written by the fill loops of one block. -/
def blockBases (width height px py bs : Nat) : List Nat :=
  (List.range (min bs (height - py))).bind
    (fun dy => (List.range (min bs (width - px))).map
      (fun dx => ((py + dy) * width + (px + dx)) * 4))

theorem fillBlock_eq (width height px py bs r g b : Nat) (d : Nat → Nat) :
    fillBlock width height px py bs r g b d
      = (blockBases width height px py bs).foldl
          (fun acc i => writePix acc i r g b) d := by
  unfold fillBlock blockBases
  generalize List.range (min bs (height - py)) = dys
  induction dys generalizing d with
  | nil => rfl
  | cons dy rest ih =>
    simp only [List.foldl_cons, List.cons_bind, List.foldl_append, List.foldl_map]
    rw [← ih]

theorem blockBases_mul4 (width height px py bs : Nat) :
    ∀ i ∈ blockBases width height px py bs, i % 4 = 0 := by
  intro i hi
  simp only [blockBases, List.mem_bind, List.mem_map] at hi
  obtain ⟨dy, _, dx, _, rfl⟩ := hi
  omega

/-- Decomposition of a pixel-channel byte index in a row-major buffer. -/
theorem idx_decomp (width row col c : Nat) (hw : 0 < width) (hcol : col < width)
    (hc : c < 4) :
    ((row * width + col) * 4 + c) / 4 = row * width + col
    ∧ ((row * width + col) * 4 + c) % 4 = c
    ∧ (row * width + col) / width = row
    ∧ (row * width + col) % width = col := by
  refine ⟨by omega, by omega, ?_, ?_⟩
  · have h1 : row * width + col = col + width * row := by ring
    rw [h1, Nat.add_mul_div_left _ _ hw, Nat.div_eq_of_lt hcol]
    omega
  · have h1 : row * width + col = col + width * row := by ring
    rw [h1, Nat.add_mul_mod_self_left, Nat.mod_eq_of_lt hcol]

/-- A byte index is written by the block at `(px, py)` exactly when it is an
RGB channel of an in-bounds pixel of that block. -/
theorem exists_base_iff (width height px py bs j : Nat) (hw : 0 < width)
    (hpx : px < width) :
    (∃ i ∈ blockBases width height px py bs, i ≤ j ∧ j ≤ i + 2) ↔
      (j % 4 < 3 ∧ py ≤ j / 4 / width ∧ j / 4 / width < py + min bs (height - py)
        ∧ px ≤ j / 4 % width ∧ j / 4 % width < px + min bs (width - px)) := by
  constructor
  · rintro ⟨i, hi, hij⟩
    simp only [blockBases, List.mem_bind, List.mem_map, List.mem_range] at hi
    obtain ⟨dy, hdy, dx, hdx, rfl⟩ := hi
    have hcol : px + dx < width := by omega
    have hc : j - ((py + dy) * width + (px + dx)) * 4 < 4 := by omega
    have hj : j = ((py + dy) * width + (px + dx)) * 4
        + (j - ((py + dy) * width + (px + dx)) * 4) := by omega
    obtain ⟨h1, h2, h3, h4⟩ := idx_decomp width (py + dy) (px + dx)
      (j - ((py + dy) * width + (px + dx)) * 4) hw hcol hc
    rw [hj, h1, h2, h3, h4]
    omega
  · rintro ⟨hc3, h1, h2, h3, h4⟩
    refine ⟨((j / 4 / width) * width + j / 4 % width) * 4, ?_, ?_⟩
    · simp only [blockBases, List.mem_bind, List.mem_map, List.mem_range]
      have hrow : py + (j / 4 / width - py) = j / 4 / width := by omega
      have hcol2 : px + (j / 4 % width - px) = j / 4 % width := by omega
      exact ⟨j / 4 / width - py, by omega, j / 4 % width - px, by omega,
        by rw [hrow, hcol2]⟩
    · have hdm1 : width * (j / 4 / width) + j / 4 % width = j / 4 :=
        Nat.div_add_mod _ _
      have hdm2 : 4 * (j / 4) + j % 4 = j := Nat.div_add_mod _ _
      have : (j / 4 / width) * width + j / 4 % width = j / 4 := by
        rw [Nat.mul_comm]
        exact hdm1
      rw [this]
      omega

theorem fillBlock_apply (width height px py bs r g b : Nat) (d : Nat → Nat)
    (j : Nat) (hw : 0 < width) (hpx : px < width) :
    fillBlock width height px py bs r g b d j =
      if j % 4 < 3 ∧ py ≤ j / 4 / width ∧ j / 4 / width < py + min bs (height - py)
          ∧ px ≤ j / 4 % width ∧ j / 4 % width < px + min bs (width - px) then
        (if j % 4 = 0 then r else if j % 4 = 1 then g else b)
      else d j := by
  rw [fillBlock_eq,
    foldl_writePix_apply r g b j _ d (blockBases_mul4 width height px py bs)]
  by_cases hcond : ∃ i ∈ blockBases width height px py bs, i ≤ j ∧ j ≤ i + 2
  · rw [if_pos hcond,
      if_pos ((exists_base_iff width height px py bs j hw hpx).mp hcond)]
  · rw [if_neg hcond,
      if_neg (fun h => hcond ((exists_base_iff width height px py bs j hw hpx).mpr h))]

theorem mem_blockStarts_iff (len bs i : Nat) (hbs : 0 < bs) :
    i ∈ blockStarts len bs ↔ i % bs = 0 ∧ i < len := by
  simp only [blockStarts, List.mem_map, List.mem_range]
  constructor
  · rintro ⟨k, hk, rfl⟩
    refine ⟨Nat.mul_mod_left k bs, ?_⟩
    have h1 : (k + 1) * bs ≤ ((len + bs - 1) / bs) * bs :=
      Nat.mul_le_mul_right bs hk
    have h2 : ((len + bs - 1) / bs) * bs ≤ len + bs - 1 := Nat.div_mul_le_self _ _
    have h3 : (k + 1) * bs = k * bs + bs := by ring
    omega
  · rintro ⟨hmod, hlt⟩
    refine ⟨i / bs, ?_, ?_⟩
    · have h1 : i / bs ≤ (len - 1) / bs := Nat.div_le_div_right (by omega)
      have h2 : (len + bs - 1) / bs = (len - 1) / bs + 1 := by
        have h3 : len + bs - 1 = (len - 1) + bs := by omega
        rw [h3, Nat.add_div_right _ hbs]
      omega
    · exact Nat.div_mul_cancel (Nat.dvd_of_mod_eq_zero hmod)

/-- Rounding a coordinate down to its block start. -/
theorem block_round (bs start v : Nat) (hbs : 0 < bs) (hstart : start % bs = 0) :
    (start ≤ v ∧ v < start + bs) ↔ bs * (v / bs) = start := by
  have hdm := Nat.div_add_mod v bs
  have hmlt := Nat.mod_lt v hbs
  constructor
  · rintro ⟨h1, h2⟩
    have hq : start / bs * bs = start :=
      Nat.div_mul_cancel (Nat.dvd_of_mod_eq_zero hstart)
    have hlo : start / bs * bs ≤ v := by rw [hq]; exact h1
    have hhi : v < (start / bs + 1) * bs := by
      have h4 : (start / bs + 1) * bs = start / bs * bs + bs := by ring
      rw [h4, hq]; exact h2
    have hv : v / bs = start / bs := Nat.div_eq_of_lt_le hlo hhi
    rw [hv, Nat.mul_comm, hq]
  · rintro heq
    constructor
    · omega
    · omega

/-- The block grid visited by the two outer loops, outer rows first. -/
def allBlocks (width height bs : Nat) : List (Nat × Nat) :=
  (blockStarts height bs).bind
    (fun py => (blockStarts width bs).map (fun px => (py, px)))

theorem applyPixelateEffect_eq_blocks (width height bs : Nat) (d : Nat → Nat) :
    applyPixelateEffect width height bs d
      = (allBlocks width height bs).foldl
          (fun acc p => processBlock width height bs p.1 p.2 acc) d := by
  unfold applyPixelateEffect allBlocks
  generalize blockStarts height bs = pys
  induction pys generalizing d with
  | nil => rfl
  | cons py rest ih =>
    simp only [List.foldl_cons, List.cons_bind, List.foldl_append, List.foldl_map]
    rw [← ih]

/-- Description of the buffer after the blocks in `S` have been processed:
an RGB byte of an in-bounds pixel whose block is in `S` holds the matching
channel of that block's top-left pixel of the original buffer; every other
byte is original. -/
def pixelatedAt (width height bs : Nat) (S : List (Nat × Nat)) (d : Nat → Nat) :
    Nat → Nat :=
  fun j =>
    if j < 4 * width * height ∧ j % 4 < 3
        ∧ (bs * (j / 4 / width / bs), bs * (j / 4 % width / bs)) ∈ S then
      d ((bs * (j / 4 / width / bs) * width + bs * (j / 4 % width / bs)) * 4 + j % 4)
    else d j

theorem pixelatedAt_apply (width height bs : Nat) (S : List (Nat × Nat))
    (d : Nat → Nat) (j : Nat) :
    pixelatedAt width height bs S d j =
      if j < 4 * width * height ∧ j % 4 < 3
          ∧ (bs * (j / 4 / width / bs), bs * (j / 4 % width / bs)) ∈ S then
        d ((bs * (j / 4 / width / bs) * width + bs * (j / 4 % width / bs)) * 4 + j % 4)
      else d j := rfl

theorem pixelatedAt_nil (width height bs : Nat) (d : Nat → Nat) :
    pixelatedAt width height bs [] d = d := by
  funext j
  rw [pixelatedAt_apply]
  simp

/-- Processing one block on a partially pixelated buffer pixelates exactly
that block as well: the sample reads the original top-left bytes (the block
is not yet in `S`, and even if it were the sample byte maps to itself), and
the fill overwrites exactly the in-bounds pixels of the block. -/
theorem processBlock_pixelatedAt (width height bs py px : Nat)
    (S : List (Nat × Nat)) (d : Nat → Nat) (hw : 0 < width) (hbs : 0 < bs)
    (hpyb : py % bs = 0) (hpy : py < height) (hpxb : px % bs = 0)
    (hpx : px < width) :
    processBlock width height bs py px (pixelatedAt width height bs S d)
      = pixelatedAt width height bs (S ++ [(py, px)]) d := by
  have hminx : min px (width - 1) = px := by omega
  have hminy : min py (height - 1) = py := by omega
  have hby : bs * (py / bs) = py := (block_round bs py py hbs hpyb).mp ⟨le_refl _, by omega⟩
  have hbx : bs * (px / bs) = px := (block_round bs px px hbs hpxb).mp ⟨le_refl _, by omega⟩
  have hsample : ∀ c, c < 4 →
      pixelatedAt width height bs S d ((py * width + px) * 4 + c)
        = d ((py * width + px) * 4 + c) := by
    intro c hc
    obtain ⟨h1, h2, h3, h4⟩ := idx_decomp width py px c hw hpx hc
    rw [pixelatedAt_apply, h1, h2, h3, h4, hby, hbx]
    split
    · rfl
    · rfl
  have hs0 : pixelatedAt width height bs S d ((py * width + px) * 4)
      = d ((py * width + px) * 4) := by
    have h := hsample 0 (by omega)
    simpa using h
  have hs1 : pixelatedAt width height bs S d ((py * width + px) * 4 + 1)
      = d ((py * width + px) * 4 + 1) := hsample 1 (by omega)
  have hs2 : pixelatedAt width height bs S d ((py * width + px) * 4 + 2)
      = d ((py * width + px) * 4 + 2) := hsample 2 (by omega)
  funext j
  have hcol_lt : j / 4 % width < width := Nat.mod_lt _ hw
  have hj4 : width * (j / 4 / width) + j / 4 % width = j / 4 := Nat.div_add_mod _ _
  have hj44 : 4 * (j / 4) + j % 4 = j := Nat.div_add_mod _ _
  have hexp : width * (height - 1) + width = width * height := by
    calc width * (height - 1) + width = width * (height - 1 + 1) := by ring
      _ = width * height := by rw [Nat.sub_add_cancel (by omega)]
  have hlink : 4 * width * height = 4 * (width * height) := by ring
  show processBlock width height bs py px (pixelatedAt width height bs S d) j = _
  unfold processBlock
  simp only [hminx, hminy, hs0, hs1, hs2]
  rw [fillBlock_apply width height px py bs _ _ _ _ j hw hpx]
  by_cases hfill : j % 4 < 3 ∧ py ≤ j / 4 / width
      ∧ j / 4 / width < py + min bs (height - py)
      ∧ px ≤ j / 4 % width ∧ j / 4 % width < px + min bs (width - px)
  · rw [if_pos hfill]
    obtain ⟨hc3, hr1, hr2, hc1, hc2⟩ := hfill
    have hrow_lt : j / 4 / width < height := by omega
    have hrby : bs * (j / 4 / width / bs) = py :=
      (block_round bs py (j / 4 / width) hbs hpyb).mp ⟨hr1, by omega⟩
    have hrbx : bs * (j / 4 % width / bs) = px :=
      (block_round bs px (j / 4 % width) hbs hpxb).mp ⟨hc1, by omega⟩
    have hmul : width * (j / 4 / width) ≤ width * (height - 1) :=
      Nat.mul_le_mul_left _ (by omega)
    have hjlt : j < 4 * width * height := by omega
    rw [pixelatedAt_apply, hrby, hrbx]
    rw [if_pos (show j < 4 * width * height ∧ j % 4 < 3 ∧ (py, px) ∈ S ++ [(py, px)] from
      ⟨hjlt, hc3, List.mem_append_right _ (List.mem_cons_self _ _)⟩)]
    have hcase : j % 4 = 0 ∨ j % 4 = 1 ∨ j % 4 = 2 := by omega
    rcases hcase with h | h | h
    · rw [if_pos h, h, Nat.add_zero]
    · rw [if_neg (by omega), if_pos h, h]
    · rw [if_neg (by omega), if_neg (by omega), h]
  · rw [if_neg hfill]
    rw [pixelatedAt_apply, pixelatedAt_apply]
    by_cases hS : (bs * (j / 4 / width / bs), bs * (j / 4 % width / bs)) ∈ S
    · have hS2 : (bs * (j / 4 / width / bs), bs * (j / 4 % width / bs)) ∈ S ++ [(py, px)] :=
        List.mem_append_left _ hS
      by_cases hrest : j < 4 * width * height ∧ j % 4 < 3
      · rw [if_pos ⟨hrest.1, hrest.2, hS⟩, if_pos ⟨hrest.1, hrest.2, hS2⟩]
      · rw [if_neg (by tauto), if_neg (by tauto)]
    · rw [if_neg (by tauto)]
      by_cases hnew : j < 4 * width * height ∧ j % 4 < 3
          ∧ (bs * (j / 4 / width / bs), bs * (j / 4 % width / bs)) ∈ S ++ [(py, px)]
      · exfalso
        obtain ⟨hjlt, hc3, hmem⟩ := hnew
        rcases List.mem_append.mp hmem with h | h
        · exact hS h
        · have heq : (bs * (j / 4 / width / bs), bs * (j / 4 % width / bs)) = (py, px) := by
            simpa using h
          have heq1 : bs * (j / 4 / width / bs) = py := congrArg Prod.fst heq
          have heq2 : bs * (j / 4 % width / bs) = px := congrArg Prod.snd heq
          have hr := (block_round bs py (j / 4 / width) hbs hpyb).mpr heq1
          have hc := (block_round bs px (j / 4 % width) hbs hpxb).mpr heq2
          have hrow_lt : j / 4 / width < height := by
            -- j < 4 w h gives the row bound
            have h1 : j / 4 < width * height := by omega
            have h2 : j / 4 / width < height := by
              by_contra hcon
              push_neg at hcon
              have h3 : width * height ≤ width * (j / 4 / width) :=
                Nat.mul_le_mul_left _ hcon
              omega
            exact h2
          exact hfill ⟨hc3, hr.1, by omega, hc.1, by omega⟩
      · rw [if_neg hnew]

theorem blockFold_pixelatedAt (width height bs : Nat) (d : Nat → Nat)
    (hw : 0 < width) (hbs : 0 < bs) :
    ∀ (L S : List (Nat × Nat)),
      (∀ p ∈ L, p.1 % bs = 0 ∧ p.1 < height ∧ p.2 % bs = 0 ∧ p.2 < width) →
      L.foldl (fun acc p => processBlock width height bs p.1 p.2 acc)
          (pixelatedAt width height bs S d)
        = pixelatedAt width height bs (S ++ L) d := by
  intro L
  induction L with
  | nil =>
    intro S _
    simp
  | cons p rest ih =>
    intro S hval
    obtain ⟨a, b⟩ := p
    obtain ⟨h1, h2, h3, h4⟩ := hval (a, b) (List.mem_cons_self _ _)
    simp only [List.foldl_cons]
    rw [processBlock_pixelatedAt width height bs a b S d hw hbs h1 h2 h3 h4,
      ih (S ++ [(a, b)]) (fun q hq => hval q (List.mem_cons_of_mem _ hq)),
      List.append_assoc]
    rfl

theorem row_lt_of_lt (width height j : Nat) (hw : 0 < width)
    (hj : j < 4 * width * height) : j / 4 / width < height := by
  have hj4 : width * (j / 4 / width) + j / 4 % width = j / 4 := Nat.div_add_mod _ _
  have hlink : 4 * width * height = 4 * (width * height) := by ring
  by_contra hcon
  push_neg at hcon
  have h3 : width * height ≤ width * (j / 4 / width) := Nat.mul_le_mul_left _ hcon
  omega

/-- Pointwise description of the whole pixelate pass on a region buffer with
positive width: every RGB byte of an in-bounds pixel receives the matching
channel of the top-left pixel of its block (block starts are the multiples
of `bs`), every other byte of the buffer is untouched. -/
theorem applyPixelateEffect_apply (width height bs : Nat) (d : Nat → Nat)
    (j : Nat) (hw : 0 < width) (hbs : 0 < bs) :
    applyPixelateEffect width height bs d j =
      if j < 4 * width * height ∧ j % 4 < 3 then
        d ((bs * (j / 4 / width / bs) * width + bs * (j / 4 % width / bs)) * 4
          + j % 4)
      else d j := by
  have hval : ∀ p ∈ allBlocks width height bs,
      p.1 % bs = 0 ∧ p.1 < height ∧ p.2 % bs = 0 ∧ p.2 < width := by
    intro p hp
    simp only [allBlocks, List.mem_bind, List.mem_map] at hp
    obtain ⟨py, hpy, px, hpx, rfl⟩ := hp
    obtain ⟨hpy1, hpy2⟩ := (mem_blockStarts_iff height bs py hbs).mp hpy
    obtain ⟨hpx1, hpx2⟩ := (mem_blockStarts_iff width bs px hbs).mp hpx
    exact ⟨hpy1, hpy2, hpx1, hpx2⟩
  have h := blockFold_pixelatedAt width height bs d hw hbs
    (allBlocks width height bs) [] hval
  rw [pixelatedAt_nil] at h
  rw [applyPixelateEffect_eq_blocks, h, pixelatedAt_apply]
  by_cases hj : j < 4 * width * height ∧ j % 4 < 3
  · have hrow_lt : j / 4 / width < height := row_lt_of_lt width height j hw hj.1
    have hcol_lt : j / 4 % width < width := Nat.mod_lt _ hw
    have hdr := Nat.div_add_mod (j / 4 / width) bs
    have hmr := Nat.mod_lt (j / 4 / width) hbs
    have hdc := Nat.div_add_mod (j / 4 % width) bs
    have hmc := Nat.mod_lt (j / 4 % width) hbs
    have hmem : (bs * (j / 4 / width / bs), bs * (j / 4 % width / bs))
        ∈ ([] : List (Nat × Nat)) ++ allBlocks width height bs := by
      simp only [List.nil_append, allBlocks, List.mem_bind, List.mem_map]
      refine ⟨bs * (j / 4 / width / bs), ?_, bs * (j / 4 % width / bs), ?_, rfl⟩
      · exact (mem_blockStarts_iff height bs _ hbs).mpr
          ⟨Nat.mul_mod_right _ _, by omega⟩
      · exact (mem_blockStarts_iff width bs _ hbs).mpr
          ⟨Nat.mul_mod_right _ _, by omega⟩
    rw [if_pos ⟨hj.1, hj.2, hmem⟩, if_pos hj]
  · rw [if_neg (by tauto), if_neg hj]

theorem blockStarts_zero (bs : Nat) (hbs : 0 < bs) : blockStarts 0 bs = [] := by
  unfold blockStarts
  have h : (0 + bs - 1) / bs = 0 := Nat.div_eq_of_lt (by omega)
  rw [h]
  rfl

/-- A zero-area region buffer is left untouched: one of the block-start
lists is empty, so no write happens. -/
theorem applyPixelateEffect_degenerate (width height bs : Nat) (d : Nat → Nat)
    (hbs : 0 < bs) (h : width = 0 ∨ height = 0) :
    applyPixelateEffect width height bs d = d := by
  rw [applyPixelateEffect_eq_blocks]
  have hnil : allBlocks width height bs = [] := by
    rcases h with rfl | rfl
    · unfold allBlocks
      rw [blockStarts_zero bs hbs]
      simp
    · unfold allBlocks
      rw [blockStarts_zero bs hbs]
      rfl
  rw [hnil]
  rfl

theorem idx_lt (w h row col c : Nat) (hrow : row < h) (hcol : col < w)
    (hc : c < 4) : (row * w + col) * 4 + c < 4 * w * h := by
  have h1 : row * w + w ≤ h * w := by
    have h2 := Nat.mul_le_mul_right w (show row + 1 ≤ h by omega)
    calc row * w + w = (row + 1) * w := by ring
      _ ≤ h * w := h2
  have h3 : 4 * w * h = 4 * (h * w) := by ring
  omega

/-- Alpha bytes are never written by the pixelate loops. -/
theorem applyPixelateEffect_alpha (width height bs : Nat) (d : Nat → Nat)
    (j : Nat) (hbs : 0 < bs) (hj : j % 4 = 3) :
    applyPixelateEffect width height bs d j = d j := by
  by_cases hw : 0 < width
  · rw [applyPixelateEffect_apply width height bs d j hw hbs, if_neg (by omega)]
  · rw [applyPixelateEffect_degenerate width height bs d hbs (Or.inl (by omega))]

/-! ### Claim C8: pixelate block structure -/

/-- C8 — With block side `max 8 intensity`, every RGB byte of every pixel of
the region is overwritten with the corresponding channel of the top-left
pixel of the block containing it (blocks are aligned at multiples of the
side, and partial blocks at the region edge are clamped since every
in-bounds pixel belongs to some block); in particular a 16 x 16 region with
intensity 8 becomes 4 uniform 8 x 8 blocks, each colored from its top-left
source pixel. -/
theorem pixelate_block_structure (w h intensity : Nat) (d : Nat → Nat)
    (hw : 0 < w) (hi : 0 < intensity) :
    (∀ row col c, row < h → col < w → c < 4 →
      applyPixelateEffect w h (max 8 intensity) d ((row * w + col) * 4 + c)
        = if c < 3 then
            d ((max 8 intensity * (row / max 8 intensity) * w
              + max 8 intensity * (col / max 8 intensity)) * 4 + c)
          else d ((row * w + col) * 4 + c))
    ∧ (∀ e : Nat → Nat, ∀ row col c, row < 16 → col < 16 → c < 3 →
        applyPixelateEffect 16 16 (max 8 8) e ((row * 16 + col) * 4 + c)
          = e ((8 * (row / 8) * 16 + 8 * (col / 8)) * 4 + c)) := by
  constructor
  · intro row col c hrow hcol hc
    have hbs : 0 < max 8 intensity := by omega
    obtain ⟨h1, h2, h3, h4⟩ := idx_decomp w row col c hw hcol hc
    rw [applyPixelateEffect_apply w h (max 8 intensity) d _ hw hbs, h1, h2, h3, h4]
    by_cases hc3 : c < 3
    · rw [if_pos ⟨idx_lt w h row col c hrow hcol hc, hc3⟩, if_pos hc3]
    · rw [if_neg (by omega), if_neg hc3]
  · intro e row col c hrow hcol hc
    have hbs8 : (max 8 8 : Nat) = 8 := rfl
    obtain ⟨h1, h2, h3, h4⟩ := idx_decomp 16 row col c (by omega) hcol (by omega)
    rw [hbs8, applyPixelateEffect_apply 16 16 8 e _ (by omega) (by omega),
      h1, h2, h3, h4,
      if_pos ⟨idx_lt 16 16 row col c hrow hcol (by omega), hc⟩]

/-- Witness for `pixelate_block_structure`: in a 16 x 16 region the red byte
of pixel (3, 9) takes the red byte of pixel (0, 8), the top-left of its
block; on the identity buffer that byte index is 32. -/
theorem pixelate_block_structure_witness :
    applyPixelateEffect 16 16 (max 8 8) (fun n => n) ((3 * 16 + 9) * 4 + 0) = 32 := by
  have h := (pixelate_block_structure 16 16 8 (fun n => n) (by omega) (by omega)).1
    3 9 0 (by omega) (by omega) (by omega)
  rw [h]
  norm_num

/-! ### Claim C9: bounds safety and zero-area no-op -/

/-- C9 — The pixelate loops write only bytes of in-bounds region pixels
(everything at or beyond the region buffer is untouched); a zero-area region
is a no-op on the buffer; through the surface primitives, writes are clamped
to the surface (bytes beyond the surface and surface pixels outside the
region keep their value, so a region extending past the surface only writes
valid pixels), and a zero-area region leaves the whole surface unchanged.
The embedding is total, so no evaluation can throw. -/
theorem pixelate_bounds_safety (W H w h x y bs : Nat) (s d : Nat → Nat)
    (hbs : 0 < bs) :
    (∀ j, 4 * w * h ≤ j → applyPixelateEffect w h bs d j = d j)
    ∧ ((w = 0 ∨ h = 0) → applyPixelateEffect w h bs d = d)
    ∧ (∀ j, 4 * W * H ≤ j → pixelateOnSurface W H s x y w h bs j = s j)
    ∧ (∀ j, ¬ (y ≤ j / 4 / W ∧ j / 4 / W < y + h
          ∧ x ≤ j / 4 % W ∧ j / 4 % W < x + w) →
        pixelateOnSurface W H s x y w h bs j = s j)
    ∧ ((w = 0 ∨ h = 0) → ∀ j, pixelateOnSurface W H s x y w h bs j = s j) := by
  refine ⟨?_, ?_, ?_, ?_, ?_⟩
  · intro j hj
    by_cases hw : 0 < w
    · rw [applyPixelateEffect_apply w h bs d j hw hbs, if_neg (by omega)]
    · rw [applyPixelateEffect_degenerate w h bs d hbs (Or.inl (by omega))]
  · intro hzero
    exact applyPixelateEffect_degenerate w h bs d hbs hzero
  · intro j hj
    simp only [pixelateOnSurface, putRegion]
    rw [if_neg (by omega)]
  · intro j hreg
    simp only [pixelateOnSurface, putRegion]
    rw [if_neg (by tauto)]
  · intro hzero j
    simp only [pixelateOnSurface, putRegion]
    rw [if_neg (by omega)]

/-- Witness for `pixelate_bounds_safety`: a 4 x 4 region placed at (6, 6) on
an 8 x 8 surface extends 2 px past the edge; a surface byte outside the
region keeps its value, and the byte just past the region buffer is
untouched. -/
theorem pixelate_bounds_safety_witness :
    pixelateOnSurface 8 8 (fun n => n) 6 6 4 4 8 0 = 0
    ∧ applyPixelateEffect 4 4 8 (fun n => n) 64 = 64 := by
  have h := pixelate_bounds_safety 8 8 4 4 6 6 8 (fun n => n) (fun n => n) (by omega)
  exact ⟨h.2.2.2.1 0 (by omega), h.1 64 (by omega)⟩

/-! ### Claim C10: only RGB inside the region is written -/

/-- C10 — The pixelate effect never changes an alpha byte (channel 3) of the
region buffer, and on the surface it changes neither the alpha byte of any
pixel nor any byte of a pixel outside the region rectangle. -/
theorem pixelate_channel_preservation (W H w h x y bs : Nat) (s d : Nat → Nat)
    (hbs : 0 < bs) :
    (∀ j, j % 4 = 3 → applyPixelateEffect w h bs d j = d j)
    ∧ (∀ j, j % 4 = 3 → pixelateOnSurface W H s x y w h bs j = s j)
    ∧ (∀ j, ¬ (y ≤ j / 4 / W ∧ j / 4 / W < y + h
          ∧ x ≤ j / 4 % W ∧ j / 4 % W < x + w) →
        pixelateOnSurface W H s x y w h bs j = s j) := by
  refine ⟨?_, ?_, ?_⟩
  · intro j hj
    exact applyPixelateEffect_alpha w h bs d j hbs hj
  · intro j hj3
    simp only [pixelateOnSurface, putRegion]
    by_cases hcond : j < 4 * W * H ∧ y ≤ j / 4 / W ∧ j / 4 / W < y + h
        ∧ x ≤ j / 4 % W ∧ j / 4 % W < x + w
    · obtain ⟨hjWH, hy1, hy2, hx1, hx2⟩ := hcond
      rw [if_pos ⟨hjWH, hy1, hy2, hx1, hx2⟩]
      have hw : 0 < w := by omega
      have hW : 0 < W := by
        rcases Nat.eq_zero_or_pos W with rfl | hW
        · simp at hjWH
        · exact hW
      obtain ⟨l1, l2, l3, l4⟩ := idx_decomp w (j / 4 / W - y) (j / 4 % W - x)
        (j % 4) hw (by omega) (by omega)
      have halpha := applyPixelateEffect_alpha w h bs (getRegion W H s x y w)
        (((j / 4 / W - y) * w + (j / 4 % W - x)) * 4 + j % 4) hbs
        (by rw [l2]; exact hj3)
      rw [halpha]
      simp only [getRegion]
      rw [l1, l2, l3, l4]
      have hyr : y + (j / 4 / W - y) = j / 4 / W := by omega
      have hxc : x + (j / 4 % W - x) = j / 4 % W := by omega
      rw [hyr, hxc]
      have hrH : j / 4 / W < H := row_lt_of_lt W H j hW hjWH
      have hcW : j / 4 % W < W := Nat.mod_lt _ hW
      rw [if_pos ⟨hrH, hcW⟩]
      congr 1
      have hcomm : j / 4 / W * W = W * (j / 4 / W) := Nat.mul_comm _ _
      have hj4 : W * (j / 4 / W) + j / 4 % W = j / 4 := Nat.div_add_mod _ _
      have hj44 : 4 * (j / 4) + j % 4 = j := Nat.div_add_mod _ _
      omega
    · rw [if_neg hcond]
  · intro j hreg
    simp only [pixelateOnSurface, putRegion]
    rw [if_neg (by tauto)]

/-- Witness for `pixelate_channel_preservation`: the alpha byte of the first
pixel of an 8 x 8 surface survives a pixelate of the 4 x 4 region at the
origin, as does a pixel outside the region. -/
theorem pixelate_channel_preservation_witness :
    pixelateOnSurface 8 8 (fun n => n) 0 0 4 4 8 3 = 3
    ∧ pixelateOnSurface 8 8 (fun n => n) 0 0 4 4 8 (4 * (4 * 8 + 5)) = 4 * (4 * 8 + 5) := by
  have h := pixelate_channel_preservation 8 8 4 4 0 0 8 (fun n => n) (fun n => n) (by omega)
  refine ⟨h.2.1 3 (by omega), h.2.2 (4 * (4 * 8 + 5)) (by decide)⟩
